import Mathlib

/-!
Verification of the FTSwish Keras model (`src/model_ftswish.py`).

The activation function and the preprocessing arithmetic are embedded over
the real numbers: `K.relu`, `K.sigmoid` and `K.maximum` are the usual
elementwise real functions, applied here to a single scalar since the
source applies them elementwise.
-/

/-- The threshold constant `t = -1.0` (src/model_ftswish.py line 52). -/
def t : ℝ := -1.0

/-- `K.relu(x) = max(x, 0)`, as used by `ftswish`. -/
def relu (x : ℝ) : ℝ := max x 0

/-- `K.sigmoid(x) = 1 / (1 + exp(-x))`, as used by `ftswish`. -/
noncomputable def sigmoid (x : ℝ) : ℝ := 1 / (1 + Real.exp (-x))

/-- `ftswish(x) = K.maximum(t, K.relu(x)*K.sigmoid(x) + t)`
(src/model_ftswish.py lines 53-54). -/
noncomputable def ftswish (x : ℝ) : ℝ := max t (relu x * sigmoid x + t)

/-- The number of classes, `no_classes = 10` (src/model_ftswish.py line 20). -/
def no_classes : ℕ := 10

/-- Modelled from the spec: the final dense layer uses a softmax output,
a "normalization turning a vector of real scores into non-negative values
summing to 1" (the softmax code itself lives in the Keras library, not in
this repository). Standard softmax: `softmax z i = exp (z i) / Σ j, exp (z j)`. -/
noncomputable def softmax (z : Fin no_classes → ℝ) (i : Fin no_classes) : ℝ :=
  Real.exp (z i) / ∑ j, Real.exp (z j)

/-- Normalization of one raw pixel (src/model_ftswish.py lines 40-45):
the raw integer value is parsed as a float and divided by 255. -/
noncomputable def normalize_pixel (p : ℕ) : ℝ := (p : ℝ) / 255

/-- The published Flatten-T Swish formula without the relu gate, stated from
the spec's words for comparison with the source's `ftswish`. -/
noncomputable def ftswish_paper (x : ℝ) : ℝ := max t (x * sigmoid x + t)

lemma one_add_exp_pos (x : ℝ) : 0 < 1 + Real.exp (-x) := by
  positivity

lemma sigmoid_pos (x : ℝ) : 0 < sigmoid x := by
  unfold sigmoid
  positivity

lemma sigmoid_lt_one (x : ℝ) : sigmoid x < 1 := by
  unfold sigmoid
  rw [div_lt_one (one_add_exp_pos x)]
  have h := Real.exp_pos (-x)
  linarith

lemma sigmoid_mono : Monotone sigmoid := by
  intro x y hxy
  unfold sigmoid
  apply one_div_le_one_div_of_le (one_add_exp_pos y)
  have := Real.exp_le_exp.mpr (neg_le_neg hxy)
  linarith

lemma relu_nonneg (x : ℝ) : 0 ≤ relu x := le_max_right x 0

lemma relu_mono : Monotone relu := by
  intro x y hxy
  exact max_le_max hxy le_rfl

lemma relu_of_nonpos {x : ℝ} (hx : x ≤ 0) : relu x = 0 := max_eq_right hx

lemma relu_of_nonneg {x : ℝ} (hx : 0 ≤ x) : relu x = x := max_eq_left hx

lemma ftswish_of_nonpos {x : ℝ} (hx : x ≤ 0) : ftswish x = t := by
  unfold ftswish
  rw [relu_of_nonpos hx, zero_mul, zero_add, max_self]

lemma swish_term_nonneg {x : ℝ} (hx : 0 < x) : 0 ≤ x * sigmoid x :=
  le_of_lt (mul_pos hx (sigmoid_pos x))

lemma ftswish_of_pos {x : ℝ} (hx : 0 < x) : ftswish x = x * sigmoid x + t := by
  unfold ftswish
  rw [relu_of_nonneg (le_of_lt hx)]
  exact max_eq_right (by linarith [swish_term_nonneg hx])

/-- C1: for every real input `x`, `ftswish x ≥ t`: the threshold floor holds
for all real inputs. -/
theorem ftswish_ge_t (x : ℝ) : t ≤ ftswish x := le_max_left _ _

/-- C2: for every real `x ≤ 0` (including `x = 0`), `ftswish x = t` exactly:
`relu x = 0`, so the pre-clamp value equals `t` and the output is constant `t`
on the entire non-positive domain. -/
theorem ftswish_eq_t_of_nonpos (x : ℝ) (hx : x ≤ 0) : ftswish x = t :=
  ftswish_of_nonpos hx

/-- Witness for C2 at the concrete input `x = 0`. -/
theorem ftswish_eq_t_of_nonpos_witness : ftswish 0 = t :=
  ftswish_eq_t_of_nonpos 0 le_rfl

/-- C3: for every real `x > 0`, the pre-clamp value `x * sigmoid x + t` is
at least `t`, so the outer max is a no-op and
`ftswish x = x * sigmoid x + t` (Swish shifted down by `|t|`). -/
theorem ftswish_eq_swish_of_pos (x : ℝ) (hx : 0 < x) :
    t ≤ x * sigmoid x + t ∧ ftswish x = x * sigmoid x + t :=
  ⟨by linarith [swish_term_nonneg hx], ftswish_of_pos hx⟩

/-- Witness for C3 at the concrete input `x = 1`. -/
theorem ftswish_eq_swish_of_pos_witness :
    t ≤ 1 * sigmoid 1 + t ∧ ftswish 1 = 1 * sigmoid 1 + t :=
  ftswish_eq_swish_of_pos 1 one_pos

/-- C5: the relu gate is redundant: for every real `x`, the source's
`max(t, relu(x)*sigmoid(x) + t)` equals the published Flatten-T Swish
formula without the relu gate, `max(t, x*sigmoid(x) + t)`. -/
theorem ftswish_eq_ftswish_paper (x : ℝ) : ftswish x = ftswish_paper x := by
  rcases le_or_lt x 0 with hx | hx
  · rw [ftswish_of_nonpos hx]
    unfold ftswish_paper
    have hs : x * sigmoid x ≤ 0 :=
      mul_nonpos_of_nonpos_of_nonneg hx (le_of_lt (sigmoid_pos x))
    rw [max_eq_left (by linarith)]
  · rw [ftswish_of_pos hx]
    unfold ftswish_paper
    rw [max_eq_right (by linarith [swish_term_nonneg hx])]

/-- C8: for any vector of real scores fed into the final softmax layer,
each output is in `[0, 1]` and the outputs sum to `1` (exactly, over ℝ,
hence in particular within the test's `1e-5` tolerance). -/
theorem softmax_row_prob (z : Fin no_classes → ℝ) :
    (∀ i, 0 ≤ softmax z i ∧ softmax z i ≤ 1) ∧ ∑ i, softmax z i = 1 := by
  have hne : (Finset.univ : Finset (Fin no_classes)).Nonempty :=
    ⟨⟨0, by norm_num [no_classes]⟩, Finset.mem_univ _⟩
  have hpos : 0 < ∑ j, Real.exp (z j) :=
    Finset.sum_pos (fun j _ => Real.exp_pos (z j)) hne
  unfold softmax
  constructor
  · intro i
    constructor
    · exact div_nonneg (le_of_lt (Real.exp_pos (z i))) (le_of_lt hpos)
    · rw [div_le_one hpos]
      exact Finset.single_le_sum (fun j _ => le_of_lt (Real.exp_pos (z j)))
        (Finset.mem_univ i)
  · rw [← Finset.sum_div]
    exact div_self (ne_of_gt hpos)

/-- C9: `ftswish` is monotonically non-decreasing on all of ℝ; it is the
constant `t` on the non-positive domain and strictly increasing on the
positive domain. -/
theorem ftswish_monotone :
    (∀ x y : ℝ, x ≤ y → ftswish x ≤ ftswish y) ∧
    (∀ x : ℝ, x ≤ 0 → ftswish x = t) ∧
    StrictMonoOn ftswish (Set.Ioi 0) := by
  refine ⟨?_, fun x hx => ftswish_of_nonpos hx, ?_⟩
  · intro x y hxy
    apply max_le_max le_rfl
    apply add_le_add_right
    calc relu x * sigmoid x ≤ relu y * sigmoid x :=
          mul_le_mul_of_nonneg_right (relu_mono hxy) (le_of_lt (sigmoid_pos x))
      _ ≤ relu y * sigmoid y :=
          mul_le_mul_of_nonneg_left (sigmoid_mono hxy) (relu_nonneg y)
  · intro x hx y hy hxy
    rw [ftswish_of_pos hx, ftswish_of_pos hy]
    apply add_lt_add_right
    calc x * sigmoid x < y * sigmoid x :=
          mul_lt_mul_of_pos_right hxy (sigmoid_pos x)
      _ ≤ y * sigmoid y :=
          mul_le_mul_of_nonneg_left (sigmoid_mono (le_of_lt hxy)) (le_of_lt hy)

/-- Witness for C9 at the concrete inputs `x = -1 ≤ y = 2`. -/
theorem ftswish_monotone_witness : ftswish (-1) ≤ ftswish 2 :=
  ftswish_monotone.1 (-1) 2 (by norm_num)

/-- C10: every normalized pixel value lies in `[0, 1]`: a raw integer entry
in `[0, 255]`, converted to float and divided by 255, gives `0 ≤ v ≤ 1`. -/
theorem normalize_pixel_mem_Icc (p : ℕ) (hp : p ≤ 255) :
    0 ≤ normalize_pixel p ∧ normalize_pixel p ≤ 1 := by
  unfold normalize_pixel
  constructor
  · positivity
  · rw [div_le_one (by norm_num : (0:ℝ) < 255)]
    exact_mod_cast hp

/-- Witness for C10 at the concrete raw pixel value `p = 255`. -/
theorem normalize_pixel_mem_Icc_witness :
    0 ≤ normalize_pixel 255 ∧ normalize_pixel 255 ≤ 1 :=
  normalize_pixel_mem_Icc 255 le_rfl

lemma hasDerivAt_sigmoid (x : ℝ) :
    HasDerivAt sigmoid (sigmoid x * (1 - sigmoid x)) x := by
  have h1 : HasDerivAt (fun y : ℝ => -y) (-1) x := (hasDerivAt_id x).neg
  have h2 : HasDerivAt (fun y : ℝ => Real.exp (-y)) (Real.exp (-x) * -1) x :=
    (Real.hasDerivAt_exp (-x)).comp x h1
  have hu : HasDerivAt (fun y : ℝ => 1 + Real.exp (-y)) (Real.exp (-x) * -1) x :=
    h2.const_add 1
  have hne : (1 + Real.exp (-x)) ≠ 0 := ne_of_gt (one_add_exp_pos x)
  have hinv := hu.inv hne
  have hval : sigmoid x * (1 - sigmoid x) =
      -(Real.exp (-x) * -1) / (1 + Real.exp (-x)) ^ 2 := by
    unfold sigmoid
    field_simp
    ring
  have heq : sigmoid = fun y : ℝ => (1 + Real.exp (-y))⁻¹ := by
    funext y
    simp [sigmoid, one_div]
  rw [hval, heq]
  exact hinv

lemma hasDerivAt_swish (x : ℝ) :
    HasDerivAt (fun y : ℝ => y * sigmoid y + t)
      (sigmoid x + x * sigmoid x * (1 - sigmoid x)) x := by
  have h := ((hasDerivAt_id x).mul (hasDerivAt_sigmoid x)).add_const t
  convert h using 1
  simp
  ring

lemma hasDerivAt_ftswish_pos {x : ℝ} (hx : 0 < x) :
    HasDerivAt ftswish (sigmoid x + x * sigmoid x * (1 - sigmoid x)) x := by
  apply (hasDerivAt_swish x).congr_of_eventuallyEq
  filter_upwards [isOpen_Ioi.mem_nhds hx] with y hy
  exact ftswish_of_pos hy

lemma hasDerivAt_ftswish_neg {x : ℝ} (hx : x < 0) :
    HasDerivAt ftswish 0 x := by
  apply (hasDerivAt_const x t).congr_of_eventuallyEq
  filter_upwards [isOpen_Iio.mem_nhds hx] with y hy
  exact ftswish_of_nonpos (le_of_lt hy)

lemma hasDerivWithinAt_ftswish_left :
    HasDerivWithinAt ftswish 0 (Set.Iic 0) 0 := by
  apply (hasDerivWithinAt_const (0:ℝ) (Set.Iic 0) t).congr
  · intro y hy
    exact ftswish_of_nonpos hy
  · exact ftswish_of_nonpos le_rfl

/-- C4: the derivative of `ftswish` is
`sigmoid x + x * sigmoid x * (1 - sigmoid x)` for every `x > 0`, and `0`
for every `x ≤ 0`, where `x = 0` is treated as part of the `x ≤ 0` branch
(sub-gradient convention: the one-sided derivative within `(-∞, 0]` is `0`). -/
theorem ftswish_deriv :
    (∀ x : ℝ, 0 < x →
      HasDerivAt ftswish (sigmoid x + x * sigmoid x * (1 - sigmoid x)) x) ∧
    (∀ x : ℝ, x < 0 → HasDerivAt ftswish 0 x) ∧
    HasDerivWithinAt ftswish 0 (Set.Iic 0) 0 :=
  ⟨fun _ hx => hasDerivAt_ftswish_pos hx, fun _ hx => hasDerivAt_ftswish_neg hx,
    hasDerivWithinAt_ftswish_left⟩

/-- Witness for C4 at the spec's gradient-test points `x = 5` and `x = -5`. -/
theorem ftswish_deriv_witness :
    HasDerivAt ftswish (sigmoid 5 + 5 * sigmoid 5 * (1 - sigmoid 5)) 5 ∧
    HasDerivAt ftswish 0 (-5) :=
  ⟨ftswish_deriv.1 5 (by norm_num), ftswish_deriv.2.1 (-5) (by norm_num)⟩

lemma continuous_sigmoid : Continuous sigmoid := by
  unfold sigmoid
  exact continuous_const.div
    (continuous_const.add (Real.continuous_exp.comp continuous_neg))
    (fun x => ne_of_gt (one_add_exp_pos x))

lemma continuous_ftswish : Continuous ftswish := by
  unfold ftswish relu
  exact continuous_const.max
    (((continuous_id.max continuous_const).mul continuous_sigmoid).add
      continuous_const)

lemma sigmoid_zero : sigmoid 0 = 1 / 2 := by
  unfold sigmoid
  rw [neg_zero, Real.exp_zero]
  norm_num

/-- C6: `ftswish` is continuous at `x = 0` with value `t`, its derivative is
exactly `0` for every `x < 0`, and the derivative's one-sided limit as
`x → 0⁺` is `sigmoid 0 = 0.5`. -/
theorem ftswish_zero_behavior :
    ContinuousAt ftswish 0 ∧ ftswish 0 = t ∧
    (∀ x : ℝ, x < 0 → deriv ftswish x = 0) ∧
    Filter.Tendsto (deriv ftswish) (nhdsWithin 0 (Set.Ioi 0))
      (nhds (sigmoid 0)) ∧
    sigmoid 0 = 1 / 2 := by
  refine ⟨continuous_ftswish.continuousAt, ftswish_of_nonpos le_rfl,
    fun x hx => (hasDerivAt_ftswish_neg hx).deriv, ?_, sigmoid_zero⟩
  have hcont : Continuous fun y : ℝ =>
      sigmoid y + y * sigmoid y * (1 - sigmoid y) :=
    continuous_sigmoid.add ((continuous_id.mul continuous_sigmoid).mul
      (continuous_const.sub continuous_sigmoid))
  have h0 : sigmoid 0 + 0 * sigmoid 0 * (1 - sigmoid 0) = sigmoid 0 := by ring
  have htd : Filter.Tendsto
      (fun y : ℝ => sigmoid y + y * sigmoid y * (1 - sigmoid y))
      (nhdsWithin 0 (Set.Ioi 0)) (nhds (sigmoid 0)) := by
    rw [← h0]
    exact (hcont.tendsto 0).mono_left nhdsWithin_le_nhds
  apply htd.congr'
  filter_upwards [self_mem_nhdsWithin] with y hy
  exact ((hasDerivAt_ftswish_pos hy).deriv).symm

/-- Witness for C6 at the concrete input `x = -5`. -/
theorem ftswish_zero_behavior_witness : deriv ftswish (-5) = 0 :=
  ftswish_zero_behavior.2.2.1 (-5) (by norm_num)

/-- C7: at the large positive input `x = 50`, the absolute difference between
`ftswish 50` and `50 + t` equals `50 / (1 + exp 50)` and is at most `1e-4`. -/
theorem ftswish_at_fifty :
    |ftswish 50 - (50 + t)| = 50 / (1 + Real.exp 50) ∧
    |ftswish 50 - (50 + t)| ≤ 1e-4 := by
  have hpos : (0:ℝ) < 1 + Real.exp 50 := by positivity
  have hdiff : ftswish 50 - (50 + t) = -(50 / (1 + Real.exp 50)) := by
    rw [ftswish_of_pos (by norm_num : (0:ℝ) < 50)]
    unfold sigmoid
    rw [Real.exp_neg]
    have hE : (0:ℝ) < Real.exp 50 := Real.exp_pos 50
    field_simp
    ring
  have habs : |ftswish 50 - (50 + t)| = 50 / (1 + Real.exp 50) := by
    rw [hdiff, abs_neg, abs_of_nonneg (by positivity)]
  refine ⟨habs, ?_⟩
  rw [habs]
  have hexp : (499999:ℝ) ≤ Real.exp 50 := by
    have h2 : (2:ℝ) ≤ Real.exp 1 := by
      have := Real.exp_one_gt_d9
      linarith
    have hpow : ((2:ℝ))^(50:ℕ) ≤ (Real.exp 1)^(50:ℕ) :=
      pow_le_pow_left₀ (by norm_num) h2 50
    have he : Real.exp 50 = Real.exp 1 ^ (50:ℕ) := by
      rw [← Real.exp_nat_mul]
      norm_num
    rw [he]
    calc (499999:ℝ) ≤ 2^(50:ℕ) := by norm_num
      _ ≤ _ := hpow
  rw [div_le_iff₀ hpos]
  nlinarith [hexp]
